import Mathlib

/-!
Verification of the ObjectionClassficationUI repository: a COCO review tool
(`COCOAnnotator` in the unnamed script) and a VOC-to-COCO converter
(`voc2coco.py`).  Python dictionaries are modelled as association lists with
Python's insertion semantics (updating an existing key keeps its position,
a new key is appended); Python strings are modelled as `List Char`; machine
integers are `Int`.
-/

set_option maxHeartbeats 1600000

open List

namespace ObjCls

/-! ## Python dict model -/

/-- Dict lookup: first entry whose key matches (dicts built by `dInsert`
keep keys unique, so "first" is "the" entry). -/
def dLookup {α β : Type} [DecidableEq α] : List (α × β) → α → Option β
  | [], _ => none
  | e :: es, k => if e.1 = k then some e.2 else dLookup es k

/-- Python `d[k] = v`: update in place when the key exists, else append. -/
def dInsert {α β : Type} [DecidableEq α] (d : List (α × β)) (k : α) (v : β) :
    List (α × β) :=
  if (dLookup d k).isSome then d.map (fun e => if e.1 = k then (k, v) else e)
  else d ++ [(k, v)]

/-- Python `del d[k]`. -/
def dDelete {α β : Type} [DecidableEq α] (d : List (α × β)) (k : α) : List (α × β) :=
  d.filter (fun e => decide (e.1 ≠ k))

theorem dLookup_eq_none_iff {α β : Type} [DecidableEq α] (d : List (α × β)) (k : α) :
    dLookup d k = none ↔ k ∉ d.map Prod.fst := by
  induction d with
  | nil => simp [dLookup]
  | cons e es ih =>
    by_cases h : e.1 = k
    · simp [dLookup, h]
    · have h1 : dLookup (e :: es) k = dLookup es k := by simp [dLookup, h]
      have h2 : k ∈ map Prod.fst (e :: es) ↔ k ∈ map Prod.fst es := by
        simp only [map_cons, mem_cons]
        constructor
        · rintro (rfl | hm)
          · exact absurd rfl h
          · exact hm
        · exact Or.inr
      rw [h1, ih]
      exact not_congr h2.symm

theorem dLookup_append_left {α β : Type} [DecidableEq α] {d₁ : List (α × β)} {k : α}
    {v : β} (h : dLookup d₁ k = some v) (d₂ : List (α × β)) :
    dLookup (d₁ ++ d₂) k = some v := by
  induction d₁ with
  | nil => simp [dLookup] at h
  | cons e es ih =>
    by_cases he : e.1 = k <;> simp_all [dLookup, he]

theorem dLookup_append_right {α β : Type} [DecidableEq α] {d₁ : List (α × β)} {k : α}
    (h : dLookup d₁ k = none) (d₂ : List (α × β)) :
    dLookup (d₁ ++ d₂) k = dLookup d₂ k := by
  induction d₁ with
  | nil => simp
  | cons e es ih =>
    by_cases he : e.1 = k <;> simp_all [dLookup, he]

theorem dInsert_fresh {α β : Type} [DecidableEq α] {d : List (α × β)} {k : α}
    (h : dLookup d k = none) (v : β) : dInsert d k v = d ++ [(k, v)] := by
  simp [dInsert, h]

/-- Keys of the dict. -/
def dKeys {α β : Type} (d : List (α × β)) : List α := d.map Prod.fst

theorem dKeys_dInsert_mem {α β : Type} [DecidableEq α] {d : List (α × β)} {k : α}
    (h : (dLookup d k).isSome) (v : β) : dKeys (dInsert d k v) = dKeys d := by
  simp only [dInsert, h, if_pos, dKeys, map_map]
  apply map_congr_left
  intro e _
  by_cases he : e.1 = k <;> simp [he]

theorem dKeys_nodup_dInsert {α β : Type} [DecidableEq α] {d : List (α × β)} (k : α)
    (v : β) (h : (dKeys d).Nodup) : (dKeys (dInsert d k v)).Nodup := by
  rcases hs : dLookup d k with _ | w
  · rw [dInsert_fresh hs]
    have hk : k ∉ dKeys d := (dLookup_eq_none_iff d k).mp hs
    have hkeys : dKeys (d ++ [(k, v)]) = dKeys d ++ [k] := by simp [dKeys]
    rw [hkeys, nodup_append]
    exact ⟨h, nodup_singleton k, by simpa [List.disjoint_singleton] using hk⟩
  · rw [dKeys_dInsert_mem (by simp [hs]) v]
    exact h

theorem dKeys_nodup_dDelete {α β : Type} [DecidableEq α] (d : List (α × β)) (k : α)
    (h : (dKeys d).Nodup) : (dKeys (dDelete d k)).Nodup := by
  induction d with
  | nil => simp [dDelete, dKeys]
  | cons e es ih =>
    simp only [dKeys, map_cons, nodup_cons] at h
    by_cases he : e.1 = k
    · simpa [dDelete, filter_cons, he, dKeys] using ih h.2
    · have hsub : dKeys (dDelete es k) ⊆ dKeys es :=
        map_subset Prod.fst (filter_subset' es)
      have hkeys : dKeys (dDelete (e :: es) k) = e.1 :: dKeys (dDelete es k) := by
        simp [dDelete, filter_cons, he, dKeys]
      rw [hkeys, nodup_cons]
      exact ⟨fun hm => h.1 (hsub hm), ih h.2⟩

/-! ## Annotation Index Builder (`COCOAnnotator.load_annotations`) -/

/-- One entry of the COCO `images` list (the fields the loader reads). -/
structure CocoImageIn where
  id : Int
  file_name : String
deriving DecidableEq

/-- One entry of the COCO `annotations` list; the loader only inspects
`image_id` and passes the record through verbatim. -/
structure CocoAnnIn where
  id : Int
  image_id : Int
  category_id : Int
  bbox : List Int
  area : Int
  iscrowd : Int
deriving DecidableEq

/-- The per-image record appended to `self.image_info`. -/
structure ImageRecord where
  id : Int
  file_name : String
  annotations : List CocoAnnIn
deriving DecidableEq

/-- One step of the grouping loop: `anns_by_img.setdefault(img_id, []).append(ann)`
spelled out the way the source writes it (create-or-append). -/
def groupAdd (d : List (Int × List CocoAnnIn)) (a : CocoAnnIn) :
    List (Int × List CocoAnnIn) :=
  if (dLookup d a.image_id).isSome then
    d.map (fun e => if e.1 = a.image_id then (e.1, e.2 ++ [a]) else e)
  else d ++ [(a.image_id, [a])]

/-- `COCOAnnotator.load_annotations`: build `img_id_to_name` from `images`,
group `annotations` by `image_id`, then emit one record per entry of the
id-to-name dict, defaulting the annotation list to `[]`. -/
def load_annotations (images : List CocoImageIn) (anns : List CocoAnnIn) :
    List ImageRecord :=
  let idToName := images.foldl (fun d i => dInsert d i.id i.file_name) []
  let byImg := anns.foldl groupAdd []
  idToName.map (fun e =>
    { id := e.1, file_name := e.2, annotations := (dLookup byImg e.1).getD [] })

/-- Annotation list stored for image id `k` (empty when the dict has no entry). -/
def glook (d : List (Int × List CocoAnnIn)) (k : Int) : List CocoAnnIn :=
  (dLookup d k).getD []

theorem dLookup_mapUpdate {β : Type} (d : List (Int × β)) (j k : Int) (g : β → β) :
    dLookup (d.map (fun e => if e.1 = j then (e.1, g e.2) else e)) k =
      if j = k then (dLookup d k).map g else dLookup d k := by
  induction d with
  | nil => simp [dLookup]
  | cons e es ih =>
    by_cases hej : e.1 = j
    · by_cases hjk : j = k
      · subst hej; subst hjk
        simp [dLookup]
      · have hek : ¬e.1 = k := by rw [hej]; exact hjk
        simp [dLookup, hej, hek, hjk, ih]
    · by_cases hek : e.1 = k
      · have hjk : ¬j = k := fun hh => hej (hek.trans hh.symm)
        have hkj : ¬k = j := fun hh => hjk hh.symm
        simp [dLookup, hej, hek, hjk, hkj]
      · simp [dLookup, hej, hek, ih]

theorem glook_groupAdd (d : List (Int × List CocoAnnIn)) (a : CocoAnnIn) (k : Int) :
    glook (groupAdd d a) k = glook d k ++ if a.image_id = k then [a] else [] := by
  unfold groupAdd
  rcases hs : dLookup d a.image_id with _ | w
  · simp only [hs, Option.isSome_none, Bool.false_eq_true, if_false]
    by_cases hk : a.image_id = k
    · subst hk
      rw [glook, dLookup_append_right hs]
      simp [glook, dLookup, hs]
    · rcases hdk : dLookup d k with _ | u
      · rw [glook, dLookup_append_right hdk]
        simp [glook, dLookup, hdk, hk, Ne.symm hk]
      · rw [glook, dLookup_append_left hdk]
        simp [glook, hdk, hk]
  · simp only [hs, Option.isSome_some, if_true]
    rw [glook, glook, dLookup_mapUpdate d a.image_id k (fun l => l ++ [a])]
    by_cases hk : a.image_id = k
    · subst hk
      simp [hs]
    · simp [hk]

theorem glook_foldl (anns : List CocoAnnIn) :
    ∀ (d : List (Int × List CocoAnnIn)) (k : Int),
      glook (anns.foldl groupAdd d) k =
        glook d k ++ anns.filter (fun a => decide (a.image_id = k)) := by
  induction anns with
  | nil => simp
  | cons a anns ih =>
    intro d k
    rw [foldl_cons, ih, glook_groupAdd, filter_cons]
    by_cases hk : a.image_id = k <;> simp [hk]

theorem foldl_dInsert_images (images : List CocoImageIn) :
    ∀ (d : List (Int × String)),
      (∀ i ∈ images, dLookup d i.id = none) → (images.map (·.id)).Nodup →
      images.foldl (fun d i => dInsert d i.id i.file_name) d =
        d ++ images.map (fun i => (i.id, i.file_name)) := by
  induction images with
  | nil => simp
  | cons i is ih =>
    intro d hfresh hnodup
    rw [foldl_cons, dInsert_fresh (hfresh i (mem_cons_self i is)) i.file_name]
    simp only [map_cons, nodup_cons] at hnodup
    rw [ih (d ++ [(i.id, i.file_name)]) ?later hnodup.2]
    · simp
    · intro j hj
      rw [dLookup_eq_none_iff]
      simp only [map_append, map_cons, map_nil, mem_append, mem_singleton]
      rintro (hmem | hmem)
      · exact absurd ((dLookup_eq_none_iff d j.id).mp (hfresh j (mem_cons_of_mem i hj))) (by simpa using hmem)
      · exact hnodup.1 (by rw [← hmem]; exact mem_map_of_mem (·.id) hj)

theorem load_annotations_eq (images : List CocoImageIn) (anns : List CocoAnnIn)
    (hids : (images.map (·.id)).Nodup) :
    load_annotations images anns = images.map (fun i =>
      { id := i.id, file_name := i.file_name,
        annotations := anns.filter (fun a => decide (a.image_id = i.id)) }) := by
  unfold load_annotations
  rw [foldl_dInsert_images images [] (by simp [dLookup]) hids]
  simp only [nil_append, map_map]
  apply map_congr_left
  intro i _
  have h := glook_foldl anns [] i.id
  simp only [glook, dLookup] at h
  simp [Function.comp, h]

theorem count_filter_ite {α : Type} [DecidableEq α] (p : α → Bool) (l : List α) (a : α) :
    (l.filter p).count a = if p a then l.count a else 0 := by
  induction l with
  | nil => simp
  | cons x xs ih =>
    by_cases hxa : x = a
    · subst hxa
      by_cases hx : p x <;> simp [filter_cons, hx, count_cons, ih]
    · by_cases hx : p x <;> simp [filter_cons, hx, count_cons, hxa, ih]

theorem count_flatten_filter (ids : List Int) (anns : List CocoAnnIn)
    (a : CocoAnnIn) (hnodup : ids.Nodup) (hmem : a ∈ anns → a.image_id ∈ ids) :
    ((ids.map (fun k => anns.filter (fun x => decide (x.image_id = k)))).flatten).count a
      = anns.count a := by
  have hcount : ∀ k : Int,
      (anns.filter (fun x => decide (x.image_id = k))).count a =
        if a.image_id = k then anns.count a else 0 := by
    intro k
    rw [count_filter_ite]
    by_cases hk : a.image_id = k <;> simp [hk]
  have hsum : ∀ l : List Int, l.Nodup →
      (l.map (fun k => if a.image_id = k then anns.count a else 0)).sum =
        if a.image_id ∈ l then anns.count a else 0 := by
    intro l hl
    induction l with
    | nil => simp
    | cons x xs ih =>
      simp only [map_cons, sum_cons, nodup_cons] at *
      by_cases hx : a.image_id = x
      · subst hx
        simp [ih hl.2, hl.1]
      · simp only [hx, if_false, Nat.zero_add, ih hl.2]
        by_cases hxs : a.image_id ∈ xs <;> simp [hxs, hx]
  rw [count_flatten, map_map]
  rw [show (count a ∘ fun k => anns.filter (fun x => decide (x.image_id = k)))
        = (fun k => if a.image_id = k then anns.count a else 0) from funext fun k => hcount k]
  rw [hsum ids hnodup]
  by_cases hin : a.image_id ∈ ids
  · simp [hin]
  · have : a ∉ anns := fun hc => hin (hmem hc)
    simp [hin, count_eq_zero.mpr this]

/-- C1: for a valid COCO document (image ids pairwise distinct, every
annotation referencing a listed image id), `load_annotations` produces
exactly one `ImageRecord` per entry of `images`, and the concatenation of
all produced annotation lists is a permutation of the input `annotations`
(no annotation duplicated, none lost). -/
theorem C1_load_annotations_complete (images : List CocoImageIn) (anns : List CocoAnnIn)
    (hids : (images.map (·.id)).Nodup)
    (hcov : ∀ a ∈ anns, a.image_id ∈ images.map (·.id)) :
    (load_annotations images anns).length = images.length ∧
    ((load_annotations images anns).map (·.annotations)).flatten.Perm anns := by
  rw [load_annotations_eq images anns hids]
  constructor
  · simp
  · rw [perm_iff_count]
    intro a
    have hmaps : ((images.map (fun i =>
        ({ id := i.id, file_name := i.file_name,
           annotations := anns.filter (fun x => decide (x.image_id = i.id)) } : ImageRecord))).map (·.annotations))
        = (images.map (·.id)).map (fun k => anns.filter (fun x => decide (x.image_id = k))) := by
      simp [map_map, Function.comp_def]
    rw [hmaps]
    exact count_flatten_filter (images.map (·.id)) anns a hids (fun h => hcov a h)

/-- Witness for C1 at a concrete two-image, three-annotation document. -/
theorem C1_witness :
    (load_annotations
        [{ id := 7, file_name := "a.jpg" }, { id := 3, file_name := "b.jpg" }]
        [{ id := 1, image_id := 3, category_id := 1, bbox := [0, 0, 1, 1], area := 1, iscrowd := 0 },
         { id := 2, image_id := 7, category_id := 2, bbox := [1, 1, 2, 2], area := 4, iscrowd := 0 },
         { id := 3, image_id := 3, category_id := 1, bbox := [2, 2, 3, 3], area := 9, iscrowd := 0 }]).length = 2 ∧
    ((load_annotations
        [{ id := 7, file_name := "a.jpg" }, { id := 3, file_name := "b.jpg" }]
        [{ id := 1, image_id := 3, category_id := 1, bbox := [0, 0, 1, 1], area := 1, iscrowd := 0 },
         { id := 2, image_id := 7, category_id := 2, bbox := [1, 1, 2, 2], area := 4, iscrowd := 0 },
         { id := 3, image_id := 3, category_id := 1, bbox := [2, 2, 3, 3], area := 9, iscrowd := 0 }]).map (·.annotations)).flatten.Perm
      [{ id := 1, image_id := 3, category_id := 1, bbox := [0, 0, 1, 1], area := 1, iscrowd := 0 },
       { id := 2, image_id := 7, category_id := 2, bbox := [1, 1, 2, 2], area := 4, iscrowd := 0 },
       { id := 3, image_id := 3, category_id := 1, bbox := [2, 2, 3, 3], area := 9, iscrowd := 0 }] :=
  C1_load_annotations_complete _ _ (by decide) (by decide)

/-! ## Python string helpers on `List Char`
(`str.strip()` and `str.split(':')` as the source uses them) -/

/-- `str.lstrip()` (whitespace only). -/
def pyStripLeft (l : List Char) : List Char := l.dropWhile Char.isWhitespace

/-- `str.rstrip()` (whitespace only). -/
def pyStripRight (l : List Char) : List Char :=
  (l.reverse.dropWhile Char.isWhitespace).reverse

/-- `str.strip()` (whitespace only). -/
def pyStrip (l : List Char) : List Char := pyStripRight (pyStripLeft l)

/-- `str.split(sep)` for a one-character separator: splits on EVERY
occurrence, keeping empty parts, exactly as Python does. -/
def pySplit (c : Char) : List Char → List (List Char)
  | [] => [[]]
  | x :: xs =>
    if x = c then [] :: pySplit c xs
    else
      match pySplit c xs with
      | [] => [[x]]
      | r :: rs => (x :: r) :: rs

theorem pySplit_ne_nil (c : Char) (l : List Char) : pySplit c l ≠ [] := by
  cases l with
  | nil => simp [pySplit]
  | cons x xs =>
    by_cases h : x = c
    · simp [pySplit, h]
    · simp only [pySplit, h, if_false]
      rcases hx : pySplit c xs with _ | ⟨r, rs⟩ <;> simp

theorem pySplit_length (c : Char) (l : List Char) :
    (pySplit c l).length = l.count c + 1 := by
  induction l with
  | nil => simp [pySplit]
  | cons x xs ih =>
    by_cases h : x = c
    · subst h
      simp [pySplit, count_cons, ih]
    · rcases hx : pySplit c xs with _ | ⟨r, rs⟩
      · exact absurd hx (pySplit_ne_nil c xs)
      · have hxc : ¬(x == c) = true := by simpa using h
        simp [pySplit, h, hx, count_cons, hxc, ← ih]

theorem pySplit_not_mem {c : Char} {l : List Char} (h : c ∉ l) :
    pySplit c l = [l] := by
  induction l with
  | nil => simp [pySplit]
  | cons x xs ih =>
    have hx : ¬x = c := fun hh => h (hh ▸ mem_cons_self x xs)
    have hxs : c ∉ xs := fun hh => h (mem_cons_of_mem x hh)
    simp [pySplit, hx, ih hxs]

theorem pySplit_append {c : Char} {a : List Char} (b : List Char) (h : c ∉ a) :
    pySplit c (a ++ c :: b) = a :: pySplit c b := by
  induction a with
  | nil => simp [pySplit]
  | cons x xs ih =>
    have hx : ¬x = c := fun hh => h (hh ▸ mem_cons_self x xs)
    have hxs : c ∉ xs := fun hh => h (mem_cons_of_mem x hh)
    simp [pySplit, hx, ih hxs]

theorem pyStrip_subset (l : List Char) : pyStrip l ⊆ l := by
  intro x hx
  have hx1 : x ∈ (pyStripLeft l).reverse.dropWhile Char.isWhitespace := by
    simpa [pyStrip, pyStripRight] using hx
  have hx2 : x ∈ (pyStripLeft l).reverse :=
    (dropWhile_suffix Char.isWhitespace).subset hx1
  have hx3 : x ∈ pyStripLeft l := by simpa using hx2
  exact (dropWhile_suffix Char.isWhitespace).subset hx3

theorem head_not_ws_of_stripLeft_eq {c : Char} {cs : List Char}
    (h : pyStripLeft (c :: cs) = c :: cs) : ¬c.isWhitespace := by
  intro hp
  have h2 : cs.dropWhile Char.isWhitespace = c :: cs := by
    simpa [pyStripLeft, dropWhile_cons_of_pos hp] using h
  have hle := (dropWhile_suffix (l := cs) Char.isWhitespace).length_le
  rw [h2] at hle
  simp at hle

theorem stripLeft_eq_self_of_strip {k : List Char} (h : pyStrip k = k) :
    pyStripLeft k = k := by
  have h1 : (pyStrip k).length ≤ (pyStripLeft k).length := by
    simpa [pyStrip, pyStripRight] using
      (dropWhile_suffix (l := (pyStripLeft k).reverse) Char.isWhitespace).length_le
  have h2 : (pyStripLeft k).length ≤ k.length :=
    (dropWhile_suffix (l := k) Char.isWhitespace).length_le
  have hlen : (pyStripLeft k).length = k.length := by
    rw [h] at h1
    omega
  exact (dropWhile_suffix Char.isWhitespace).eq_of_length hlen

theorem stripLeft_append_colon {k : List Char} (r : List Char)
    (h : pyStripLeft k = k) : pyStripLeft (k ++ ':' :: r) = k ++ ':' :: r := by
  cases k with
  | nil =>
    have : ¬(':'.isWhitespace) = true := by decide
    simp [pyStripLeft, dropWhile_cons, this]
  | cons c cs =>
    have hc : ¬c.isWhitespace := head_not_ws_of_stripLeft_eq h
    simp [pyStripLeft, dropWhile_cons, hc]

/-! ## Progress Store (`import_progress` / `export_results`) -/

/-- The in-memory `self.classifications` dict: file name to label. -/
abbrev CMap : Type := List (List Char × List Char)

/-- The sparse label written by the tool. -/
def sparseLabel : List Char := "稀疏".toList

/-- The dense label written by the tool. -/
def denseLabel : List Char := "密集".toList

/-- One iteration of the `for line in f` body of `import_progress`:
`if ':' in line: image_name, classification = line.strip().split(':')` —
`none` models the `ValueError` raised when the split does not have exactly
two parts. -/
def procLine (m : CMap) (line : List Char) : Option CMap :=
  if ':' ∈ line then
    match pySplit ':' (pyStrip line) with
    | [a, b] => some (dInsert m (pyStrip a) (pyStrip b))
    | _ => none
  else some m

/-- The whole read loop of `import_progress` over the file's lines.  The
`Bool` is `true` when every line was processed; on an exception the map
keeps the merges already performed (the dict is mutated in place) and the
remaining lines are not read. -/
def importLines (m : CMap) : List (List Char) → CMap × Bool
  | [] => (m, true)
  | l :: ls =>
    match procLine m l with
    | some m2 => importLines m2 ls
    | none => (m, false)

/-- `export_results`: one line `f"{image_name}: {classification}\n"` per
entry, in dict iteration order. -/
def exportLines (m : CMap) : List (List Char) :=
  m.map (fun e => e.1 ++ (':' :: ' ' :: (e.2 ++ ['\n'])))

/-- C2 counterexample: a file whose lines all contain `:` — the claim says
each is split on its first `:`, so the import succeeds with both entries —
yet the code raises `ValueError` on the two-colon line `a:b:c`, the import
fails, and the entry merged from the earlier line stays (a partial merge,
contradicting "the map is left exactly as it was before the import"). -/
theorem C2_counterexample :
    (importLines [] ["x: 1\n".toList, "a:b:c\n".toList]).2 = false ∧
    (importLines [] ["x: 1\n".toList, "a:b:c\n".toList]).1 ≠ [] := by
  constructor
  · decide
  · decide

/-- C2 amended: (1) a line without `:` is silently skipped; (2) a line whose
stripped form has exactly one `:` (written `a ++ ':' :: b` with both parts
colon-free) is split there, both parts are stripped and merged into the map;
(3) a line with two or more `:` aborts the import of the remaining lines,
reports failure, and keeps the entries merged from the earlier lines —
so a mid-file failure does leave a partial merge, and only a failure to read
the file at all (missing file, decode error) leaves the map untouched. -/
theorem C2_import_amended :
    (∀ (m : CMap) (l : List Char) (rest : List (List Char)),
        ':' ∉ l → importLines m (l :: rest) = importLines m rest) ∧
    (∀ (m : CMap) (l : List Char) (rest : List (List Char)) (a b : List Char),
        pyStrip l = a ++ ':' :: b → ':' ∉ a → ':' ∉ b →
        importLines m (l :: rest) =
          importLines (dInsert m (pyStrip a) (pyStrip b)) rest) ∧
    (∀ (m : CMap) (l : List Char) (rest : List (List Char)),
        2 ≤ (pyStrip l).count ':' →
        importLines m (l :: rest) = (m, false)) := by
  refine ⟨?skip, ?merge, ?abort⟩
  · intro m l rest h
    simp [importLines, procLine, h]
  · intro m l rest a b hsplit ha hb
    have hmem : ':' ∈ l := by
      apply pyStrip_subset l
      rw [hsplit]
      exact mem_append_right a (mem_cons_self ':' b)
    have hparts : pySplit ':' (pyStrip l) = [a, b] := by
      rw [hsplit, pySplit_append b ha, pySplit_not_mem hb]
    simp [importLines, procLine, hmem, hparts]
  · intro m l rest h
    have hpos : ':' ∈ pyStrip l := count_pos_iff.mp (by omega)
    have hmem : ':' ∈ l := pyStrip_subset l hpos
    have hlen : 3 ≤ (pySplit ':' (pyStrip l)).length := by
      rw [pySplit_length]
      omega
    rcases hps : pySplit ':' (pyStrip l) with _ | ⟨p, _ | ⟨q, _ | ⟨r, rs⟩⟩⟩
    · exact absurd hps (pySplit_ne_nil ':' (pyStrip l))
    · rw [hps] at hlen
      simp at hlen
    · rw [hps] at hlen
      simp at hlen
    · simp [importLines, procLine, hmem, hps]

/-- Witness for C2's amended behaviour at concrete lines. -/
theorem C2_amended_witness :
    importLines [] ["abc\n".toList] = importLines [] [] ∧
    importLines [] ["x: 1\n".toList] =
      importLines (dInsert [] (pyStrip "x".toList) (pyStrip " 1".toList)) [] ∧
    importLines [] ["a:b:c\n".toList] = ([], false) :=
  ⟨C2_import_amended.1 [] "abc\n".toList [] (by decide),
   C2_import_amended.2.1 [] "x: 1\n".toList [] "x".toList " 1".toList
     (by decide) (by decide) (by decide),
   C2_import_amended.2.2 [] "a:b:c\n".toList [] (by decide)⟩

theorem dropWhile_append_of_ne_nil {p : Char → Bool} {xs u : List Char}
    (h : xs.dropWhile p = u) (hu : u ≠ []) (ys : List Char) :
    (xs ++ ys).dropWhile p = u ++ ys := by
  induction xs with
  | nil =>
    rw [dropWhile_nil] at h
    exact absurd h.symm hu
  | cons x xt ih =>
    by_cases hx : p x
    · rw [dropWhile_cons_of_pos hx] at h
      rw [cons_append, dropWhile_cons_of_pos hx]
      exact ih h
    · rw [dropWhile_cons_of_neg hx] at h
      rw [cons_append, dropWhile_cons_of_neg hx, ← h, cons_append]

theorem pyStrip_concat (k t u : List Char) (hstrip : pyStrip k = k)
    (ht : (':' :: t).reverse.dropWhile Char.isWhitespace = u) (hu : u ≠ []) :
    pyStrip (k ++ (':' :: t)) = k ++ u.reverse := by
  rw [pyStrip, stripLeft_append_colon t (stripLeft_eq_self_of_strip hstrip),
    pyStripRight, reverse_append, dropWhile_append_of_ne_nil ht hu k.reverse]
  simp

theorem procLine_export_gen (m : CMap) (k v : List Char) (hstrip : pyStrip k = k)
    (hcol : ':' ∉ k) (hvcol : ':' ∉ v)
    (hdrop : (':' :: (' ' :: (v ++ ['\n']))).reverse.dropWhile Char.isWhitespace
      = (':' :: (' ' :: v)).reverse)
    (hvstrip : pyStrip (' ' :: v) = v) :
    procLine m (k ++ (':' :: (' ' :: (v ++ ['\n'])))) = some (dInsert m k v) := by
  have hsplit : pyStrip (k ++ (':' :: (' ' :: (v ++ ['\n']))))
      = k ++ (':' :: (' ' :: v)) := by
    have := pyStrip_concat k (' ' :: (v ++ ['\n'])) ((':' :: (' ' :: v)).reverse)
      hstrip hdrop (by simp)
    simpa using this
  have hmem : ':' ∈ k ++ (':' :: (' ' :: (v ++ ['\n']))) :=
    mem_append_right k (mem_cons_self ':' _)
  have hps : pySplit ':' (pyStrip (k ++ (':' :: (' ' :: (v ++ ['\n'])))))
      = [k, ' ' :: v] := by
    rw [hsplit, pySplit_append (' ' :: v) hcol,
      pySplit_not_mem (by simpa using hvcol)]
  simp [procLine, hmem, hps, hstrip, hvstrip]

theorem procLine_export (m : CMap) (k v : List Char) (hstrip : pyStrip k = k)
    (hcol : ':' ∉ k) (hlab : v = sparseLabel ∨ v = denseLabel) :
    procLine m (k ++ (':' :: (' ' :: (v ++ ['\n'])))) = some (dInsert m k v) := by
  rcases hlab with rfl | rfl <;>
    exact procLine_export_gen m k _ hstrip hcol (by decide) (by decide) (by decide)

/-- A map entry that survives the text round trip: its file name is already
stripped, contains no `:` and no line terminator, and its value is one of
the two labels the tool writes. -/
abbrev wfEntry (e : List Char × List Char) : Prop :=
  pyStrip e.1 = e.1 ∧ ':' ∉ e.1 ∧ '\n' ∉ e.1 ∧ '\r' ∉ e.1 ∧
    (e.2 = sparseLabel ∨ e.2 = denseLabel)

theorem import_export_aux (M : CMap) :
    ∀ acc : CMap, (dKeys acc ++ dKeys M).Nodup → (∀ e ∈ M, wfEntry e) →
      importLines acc (exportLines M) = (acc ++ M, true) := by
  induction M with
  | nil =>
    intro acc _ _
    simp [exportLines, importLines]
  | cons e M ih =>
    intro acc hnd hwf
    obtain ⟨hstrip, hcol, _, _, hlab⟩ := hwf e (mem_cons_self e M)
    have hfresh : dLookup acc e.1 = none := by
      rw [dLookup_eq_none_iff]
      intro hmem
      exact (nodup_append.mp hnd).2.2 hmem (by simp [dKeys])
    have hproc := procLine_export acc e.1 e.2 hstrip hcol hlab
    have hline : exportLines (e :: M)
        = (e.1 ++ (':' :: ' ' :: (e.2 ++ ['\n']))) :: exportLines M := by
      simp [exportLines]
    rw [hline]
    simp only [importLines, hproc]
    rw [dInsert_fresh hfresh]
    rw [ih (acc ++ [e]) ?nd ?wf]
    · simp
    · have hre : dKeys (acc ++ [e]) ++ dKeys M = dKeys acc ++ dKeys (e :: M) := by
        simp [dKeys]
      rw [hre]
      exact hnd
    · exact fun x hx => hwf x (mem_cons_of_mem e hx)

/-- C3 counterexample: the map with the single entry `" a" : sparse` — its
file name contains no `:` and no newline, so it satisfies the claim's
precondition — does not survive export followed by import into an empty
map: the import strips the leading space from the file name. -/
theorem C3_counterexample :
    (∀ e ∈ ([(" a".toList, sparseLabel)] : CMap), ':' ∉ e.1 ∧ '\n' ∉ e.1) ∧
    importLines [] (exportLines [(" a".toList, sparseLabel)])
      ≠ ([(" a".toList, sparseLabel)], true) := by
  exact ⟨by decide, by decide⟩

/-- C3 amended: export then import into an empty map is the identity for
every map whose file names are distinct, contain no `:` and no line
terminator, and carry no leading or trailing whitespace (import strips each
part, so a name with surrounding whitespace comes back changed), and whose
values are the two labels the tool writes. -/
theorem C3_export_import_roundtrip (M : CMap) (hnd : (dKeys M).Nodup)
    (hwf : ∀ e ∈ M, wfEntry e) :
    importLines [] (exportLines M) = (M, true) := by
  simpa using import_export_aux M [] (by simpa [dKeys] using hnd) hwf

/-- Witness for C3's amended round trip on a concrete two-entry map. -/
theorem C3_witness :
    importLines [] (exportLines [("a.jpg".toList, sparseLabel), ("b.jpg".toList, denseLabel)])
      = ([("a.jpg".toList, sparseLabel), ("b.jpg".toList, denseLabel)], true) :=
  C3_export_import_roundtrip _ (by decide) (by decide)

/-! ## Checkbox pair (`single_check`, `quick_classify`, `save_classification`)

`QCheckBox.setChecked` fires `stateChanged` only when the stored state
actually changes, and the connected handler is `single_check`, which may
uncheck the other box.  That nested `setChecked(False)` re-enters
`single_check` on a box that is now unchecked, whose body then does
nothing — so the cascade terminates after one nested call, and the
depth-limited definitions below unfold it exactly. -/

structure Boxes where
  sparse : Bool
  dense : Bool
deriving DecidableEq

/-- `single_check(sparse_check)` reached from inside another handler:
the nested `dense_check.setChecked(False)` fires a handler on an unchecked
box, which is the identity, so it is inlined as a plain field update. -/
def singleCheckSparse0 (s : Boxes) : Boxes :=
  if s.sparse then { s with dense := false } else s

def setSparse1 (s : Boxes) (b : Bool) : Boxes :=
  if s.sparse = b then s else singleCheckSparse0 { s with sparse := b }

/-- `single_check(dense_check)`: if the dense box is checked, uncheck the
sparse box (through its `setChecked`, which fires the sparse handler). -/
def singleCheckDense (s : Boxes) : Boxes :=
  if s.dense then setSparse1 s false else s

/-- `dense_check.setChecked(b)` with its `stateChanged` handler. -/
def setDense (s : Boxes) (b : Bool) : Boxes :=
  if s.dense = b then s else singleCheckDense { s with dense := b }

def singleCheckDense0 (s : Boxes) : Boxes :=
  if s.dense then { s with sparse := false } else s

def setDense1 (s : Boxes) (b : Bool) : Boxes :=
  if s.dense = b then s else singleCheckDense0 { s with dense := b }

/-- `single_check(sparse_check)`. -/
def singleCheckSparse (s : Boxes) : Boxes :=
  if s.sparse then setDense1 s false else s

/-- `sparse_check.setChecked(b)` with its `stateChanged` handler. -/
def setSparse (s : Boxes) (b : Bool) : Boxes :=
  if s.sparse = b then s else singleCheckSparse { s with sparse := b }

/-- `save_classification`: write the label of the checked box for the
current file name, or delete the entry when neither box is checked. -/
def save_classification (s : Boxes) (m : CMap) (fname : List Char) : CMap :=
  if s.sparse then dInsert m fname sparseLabel
  else if s.dense then dInsert m fname denseLabel
  else if (dLookup m fname).isSome then dDelete m fname else m

/-- `quick_classify(classification)`: check one box, uncheck the other
(in source order: sparse first, then dense), then save. -/
def quick_classify (s : Boxes) (m : CMap) (fname : List Char) (label : List Char) :
    Boxes × CMap :=
  let s2 := if label = sparseLabel then setDense (setSparse s true) false
            else setDense (setSparse s false) true
  (s2, save_classification s2 m fname)

/-- The mutual-exclusivity invariant: the two checkboxes are never both
checked. -/
def excl (s : Boxes) : Prop := s.sparse = false ∨ s.dense = false

/-- Number of entries of the classification map for file name `g`. -/
def countKey (m : CMap) (g : List Char) : Nat :=
  (m.filter (fun e => decide (e.1 = g))).length

theorem dKeys_nodup_save (s : Boxes) (m : CMap) (f : List Char)
    (hm : (dKeys m).Nodup) : (dKeys (save_classification s m f)).Nodup := by
  unfold save_classification
  split_ifs with h1 h2 h3
  · exact dKeys_nodup_dInsert _ _ hm
  · exact dKeys_nodup_dInsert _ _ hm
  · exact dKeys_nodup_dDelete _ _ hm
  · exact hm

theorem countKey_le_one (m : CMap) (hm : (dKeys m).Nodup) (g : List Char) :
    countKey m g ≤ 1 := by
  induction m with
  | nil => simp [countKey]
  | cons e es ih =>
    simp only [dKeys, map_cons, nodup_cons] at hm
    by_cases he : e.1 = g
    · have hzero : countKey es g = 0 := by
        rw [countKey, length_eq_zero]
        rw [filter_eq_nil_iff]
        intro x hx
        simp only [decide_eq_true_eq]
        intro hxg
        exact hm.1 (by rw [he, ← hxg]; exact mem_map_of_mem Prod.fst hx)
      have : countKey (e :: es) g = countKey es g + 1 := by
        simp [countKey, filter_cons, he]
      omega
    · have : countKey (e :: es) g = countKey es g := by
        simp [countKey, filter_cons, he]
      rw [this]
      exact ih hm.2

/-- C4: (1)–(2) every `setChecked` on either box, through its
`single_check` handler, preserves mutual exclusivity; (3) classifying
SPARSE then DENSE on the same image via `quick_classify` leaves exactly the
dense box checked; (4) after any `quick_classify` the classification map
still has pairwise-distinct file names, so it holds at most one label per
file name. -/
theorem C4_mutual_exclusivity :
    (∀ (s : Boxes) (b : Bool), excl s → excl (setSparse s b)) ∧
    (∀ (s : Boxes) (b : Bool), excl s → excl (setDense s b)) ∧
    (∀ (s : Boxes) (m : CMap) (f : List Char),
        (quick_classify (quick_classify s m f sparseLabel).1
            (quick_classify s m f sparseLabel).2 f denseLabel).1
          = { sparse := false, dense := true }) ∧
    (∀ (s : Boxes) (m : CMap) (f lab : List Char), (dKeys m).Nodup →
        ∀ g, countKey (quick_classify s m f lab).2 g ≤ 1) := by
  refine ⟨?s1, ?s2, ?s3, ?s4⟩
  · rintro ⟨sp, de⟩ b h
    cases sp <;> cases de <;> cases b <;>
      simp_all [setSparse, singleCheckSparse, setDense1, singleCheckDense0, excl]
  · rintro ⟨sp, de⟩ b h
    cases sp <;> cases de <;> cases b <;>
      simp_all [setDense, singleCheckDense, setSparse1, singleCheckSparse0, excl]
  · rintro ⟨sp, de⟩ m f
    cases sp <;> cases de <;>
      simp [quick_classify, setSparse, singleCheckSparse, setDense1, singleCheckDense0,
        setDense, singleCheckDense, setSparse1, singleCheckSparse0, sparseLabel, denseLabel]
  · intro s m f lab hm g
    have hnd : (dKeys (quick_classify s m f lab).2).Nodup := by
      simp only [quick_classify]
      exact dKeys_nodup_save _ m f hm
    exact countKey_le_one _ hnd g

/-- Witness for C4 at concrete states and inputs. -/
theorem C4_witness :
    excl (setSparse { sparse := false, dense := true } true) ∧
    excl (setDense { sparse := true, dense := false } true) ∧
    (quick_classify
        (quick_classify { sparse := false, dense := false } [] "a.jpg".toList sparseLabel).1
        (quick_classify { sparse := false, dense := false } [] "a.jpg".toList sparseLabel).2
        "a.jpg".toList denseLabel).1 = { sparse := false, dense := true } ∧
    countKey (quick_classify { sparse := false, dense := false } [] "a.jpg".toList
        denseLabel).2 "a.jpg".toList ≤ 1 :=
  ⟨C4_mutual_exclusivity.1 _ true (Or.inl rfl),
   C4_mutual_exclusivity.2.1 _ true (Or.inr rfl),
   C4_mutual_exclusivity.2.2.1 _ [] "a.jpg".toList,
   C4_mutual_exclusivity.2.2.2 _ [] "a.jpg".toList denseLabel (by decide) "a.jpg".toList⟩

/-! ## Cursor (`show_prev_image` / `show_next_image`) -/

/-- `self.current_index = max(0, self.current_index - 1)`. -/
def show_prev_index (i : Int) : Int := max 0 (i - 1)

/-- `self.current_index = min(len(self.image_info) - 1, self.current_index + 1)`
for a record sequence of length `N`. -/
def show_next_index (N : Nat) (i : Int) : Int := min ((N : Int) - 1) (i + 1)

/-- Any finite sequence of navigation calls (`true` = next, `false` = prev). -/
def applyMoves (N : Nat) (moves : List Bool) (i : Int) : Int :=
  moves.foldl (fun j mv => if mv then show_next_index N j else show_prev_index j) i

theorem show_prev_index_iter (k : Nat) :
    ∀ i : Int, 0 ≤ i → show_prev_index^[k] i = max 0 (i - k) := by
  induction k with
  | zero =>
    intro i hi
    simp
    omega
  | succ k ih =>
    intro i hi
    rw [Function.iterate_succ_apply,
      show show_prev_index i = max 0 (i - 1) from rfl,
      ih (max 0 (i - 1)) (by omega)]
    omega

theorem show_next_index_iter (N k : Nat) :
    ∀ i : Int, i ≤ (N : Int) - 1 →
      (show_next_index N)^[k] i = min ((N : Int) - 1) (i + k) := by
  induction k with
  | zero =>
    intro i hi
    simp
    omega
  | succ k ih =>
    intro i hi
    rw [Function.iterate_succ_apply,
      show show_next_index N i = min ((N : Int) - 1) (i + 1) from rfl,
      ih (min ((N : Int) - 1) (i + 1)) (by omega)]
    omega

/-- C5: on a nonempty record sequence of length `N`, (1) any sequence of
prev/next calls keeps the index inside `[0, N-1]` — both boundary moves
clamp instead of erroring or wrapping — and (2) `N` prev calls from the
last index followed by `N` next calls land back on the last index. -/
theorem C5_cursor_clamped (N : Nat) (hN : 0 < N) :
    (∀ (moves : List Bool) (i : Int), 0 ≤ i → i ≤ (N : Int) - 1 →
        0 ≤ applyMoves N moves i ∧ applyMoves N moves i ≤ (N : Int) - 1) ∧
    (show_next_index N)^[N] (show_prev_index^[N] ((N : Int) - 1)) = (N : Int) - 1 := by
  constructor
  · intro moves
    induction moves with
    | nil =>
      intro i h0 h1
      exact ⟨h0, h1⟩
    | cons mv moves ih =>
      intro i h0 h1
      have hstep : 0 ≤ (if mv then show_next_index N i else show_prev_index i) ∧
          (if mv then show_next_index N i else show_prev_index i) ≤ (N : Int) - 1 := by
        cases mv <;> simp [show_next_index, show_prev_index] <;> omega
      simpa [applyMoves, foldl_cons] using ih _ hstep.1 hstep.2
  · have hprev : show_prev_index^[N] ((N : Int) - 1) = 0 := by
      rw [show_prev_index_iter N ((N : Int) - 1) (by omega)]
      omega
    rw [hprev, show_next_index_iter N N 0 (by omega)]
    omega

/-- Witness for C5 at `N = 3`. -/
theorem C5_witness :
    (0 ≤ applyMoves 3 [false, false, true, true, true, true] 2 ∧
      applyMoves 3 [false, false, true, true, true, true] 2 ≤ (3 : Int) - 1) ∧
    (show_next_index 3)^[3] (show_prev_index^[3] ((3 : Int) - 1)) = (3 : Int) - 1 :=
  ⟨(C5_cursor_clamped 3 (by decide)).1 [false, false, true, true, true, true] 2
      (by decide) (by decide),
   (C5_cursor_clamped 3 (by decide)).2⟩

/-! ## VOC→COCO converter (`voc2coco.py`, `voc_to_coco`)

The converter's pure core per split: the per-image build pass, the
category construction from the set of seen class names, and the
category-id resolution pass.  Filesystem reads are modelled by
`fs : String → Option VocImage` (`none` when the image file or the
annotation XML for an id is missing, in which case the id is skipped). -/

/-- One `<object>` element of a VOC annotation file. -/
structure VocObject where
  name : String
  difficult : Int
  xmin : Int
  ymin : Int
  xmax : Int
  ymax : Int
deriving DecidableEq

/-- One parsed VOC annotation XML (size plus objects). -/
structure VocImage where
  width : Int
  height : Int
  objects : List VocObject
deriving DecidableEq

structure CocoImage where
  id : Nat
  file_name : String
  width : Int
  height : Int
deriving DecidableEq

/-- An output annotation dict.  `category_id` starts as `None` and is
filled by the resolution pass (`none` after that pass would mean the
`IndexError` branch of the list-comprehension lookup); `category_name` is
the transient field, `none` once deleted. -/
structure CocoAnn where
  id : Nat
  image_id : Nat
  category_id : Option Nat
  bbox : List Int
  area : Int
  iscrowd : Int
  difficult : Int
  category_name : Option String
deriving DecidableEq

structure CocoCat where
  id : Nat
  name : String
  supercategory : String
deriving DecidableEq

structure CocoOut where
  images : List CocoImage
  annotations : List CocoAnn
  categories : List CocoCat
deriving DecidableEq

/-- The annotation dict built for one `<object>` element. -/
def buildAnn (annId imgId : Nat) (o : VocObject) : CocoAnn :=
  { id := annId, image_id := imgId, category_id := none,
    bbox := [o.xmin, o.ymin, o.xmax - o.xmin, o.ymax - o.ymin],
    area := (o.xmax - o.xmin) * (o.ymax - o.ymin),
    iscrowd := 0, difficult := o.difficult, category_name := some o.name }

/-- The inner `for obj in root.findall('object')` loop, with the global
annotation-id counter starting at `annId`. -/
def buildAnns (imgId : Nat) : Nat → List VocObject → List CocoAnn
  | _, [] => []
  | annId, o :: os => buildAnn annId imgId o :: buildAnns imgId (annId + 1) os

/-- The per-image loop of `voc_to_coco` for one split: skip ids whose image
or XML is missing; image ids are `len(images) + 1`; annotation ids are
global across the split; class names are collected in the order the objects
are seen (the code puts them in a Python set whose only observable use is
`sorted(list(...))`, so the collection order is irrelevant — see
`mkCategories` and the order-independence part of the C7 theorem). -/
def buildLoop (fs : String → Option VocImage) :
    List String → List CocoImage → List CocoAnn → Nat → List String →
      List CocoImage × List CocoAnn × List String
  | [], imgs, anns, _, names => (imgs, anns, names)
  | i :: ids, imgs, anns, annId, names =>
    match fs i with
    | none => buildLoop fs ids imgs anns annId names
    | some v =>
      buildLoop fs ids
        (imgs ++ [{ id := imgs.length + 1, file_name := i ++ ".jpg",
                    width := v.width, height := v.height }])
        (anns ++ buildAnns (imgs.length + 1) annId v.objects)
        (annId + v.objects.length)
        (names ++ v.objects.map (·.name))

/-- Step 6: `sorted(list(category_names))` with ids `1..N` and
supercategory `"none"`.  `dedup` collapses duplicates exactly as the set
does; sorting makes the result independent of insertion order. -/
def mkCategories (names : List String) : List CocoCat :=
  ((names.dedup.insertionSort (· ≤ ·)).enum).map
    (fun p => { id := p.1 + 1, name := p.2, supercategory := "none" })

/-- Step 7 for one annotation:
`[cat['id'] for cat in categories if cat['name'] == category_name][0]`
(`head?` of the comprehension; `none` models the `IndexError` case), then
`del ann['category_name']`. -/
def resolveAnn (cats : List CocoCat) (a : CocoAnn) : CocoAnn :=
  { a with
    category_id :=
      ((cats.filter (fun c => decide (some c.name = a.category_name))).map (·.id)).head?,
    category_name := none }

/-- The pure core of `voc_to_coco` for one split. -/
def voc_to_coco_split (ids : List String) (fs : String → Option VocImage) : CocoOut :=
  let b := buildLoop fs ids [] [] 1 []
  let cats := mkCategories b.2.2
  { images := b.1, annotations := b.2.1.map (resolveAnn cats), categories := cats }

/-- All `<object>` elements of the processed (non-skipped) ids, in
processing order. -/
def sourceObjects (ids : List String) (fs : String → Option VocImage) : List VocObject :=
  ((ids.filterMap fs).map (·.objects)).flatten

theorem buildLoop_names (fs : String → Option VocImage) (ids : List String) :
    ∀ (imgs : List CocoImage) (anns : List CocoAnn) (annId : Nat) (names : List String),
      (buildLoop fs ids imgs anns annId names).2.2
        = names ++ (sourceObjects ids fs).map (·.name) := by
  induction ids with
  | nil =>
    intro imgs anns annId names
    simp [buildLoop, sourceObjects]
  | cons i ids ih =>
    intro imgs anns annId names
    rcases hfs : fs i with _ | v
    · simp [buildLoop, hfs, ih, sourceObjects, filterMap_cons]
    · simp [buildLoop, hfs, ih, sourceObjects, filterMap_cons]

theorem mem_buildAnns {imgId : Nat} {a : CocoAnn} :
    ∀ (annId : Nat) (os : List VocObject), a ∈ buildAnns imgId annId os →
      ∃ o ∈ os, ∃ k, a = buildAnn k imgId o := by
  intro annId os
  induction os generalizing annId with
  | nil => simp [buildAnns]
  | cons o os ih =>
    intro ha
    rcases (mem_cons.mp ha) with rfl | htail
    · exact ⟨o, mem_cons_self o os, annId, rfl⟩
    · obtain ⟨o2, ho2, k, hk⟩ := ih (annId + 1) htail
      exact ⟨o2, mem_cons_of_mem o ho2, k, hk⟩

theorem buildLoop_anns_mem (fs : String → Option VocImage) (ids : List String) :
    ∀ (imgs : List CocoImage) (anns : List CocoAnn) (annId : Nat)
      (names : List String) (a : CocoAnn),
      a ∈ (buildLoop fs ids imgs anns annId names).2.1 →
      a ∈ anns ∨ ∃ o ∈ sourceObjects ids fs, ∃ k j, a = buildAnn k j o := by
  induction ids with
  | nil =>
    intro imgs anns annId names a ha
    exact Or.inl (by simpa [buildLoop] using ha)
  | cons i ids ih =>
    intro imgs anns annId names a ha
    rcases hfs : fs i with _ | v
    · rw [buildLoop, hfs] at ha
      rcases ih _ _ _ _ a ha with h | ⟨o, ho, k, j, he⟩
      · exact Or.inl h
      · exact Or.inr ⟨o, by simpa [sourceObjects, filterMap_cons, hfs] using ho, k, j, he⟩
    · rw [buildLoop, hfs] at ha
      rcases ih _ _ _ _ a ha with h | ⟨o, ho, k, j, he⟩
      · rcases mem_append.mp h with h1 | h2
        · exact Or.inl h1
        · obtain ⟨o, ho, k, hk⟩ := mem_buildAnns _ _ h2
          exact Or.inr ⟨o, by simp [sourceObjects, filterMap_cons, hfs, ho], k, _, hk⟩
      · exact Or.inr ⟨o, by simpa [sourceObjects, filterMap_cons, hfs] using Or.inr ho, k, j, he⟩

/-- Every output annotation of a split is the resolution of the build-pass
annotation of some source object. -/
theorem resolved_ann_source (ids : List String) (fs : String → Option VocImage) :
    ∀ a ∈ (voc_to_coco_split ids fs).annotations,
      ∃ o ∈ sourceObjects ids fs, ∃ k j,
        a = resolveAnn (mkCategories (buildLoop fs ids [] [] 1 []).2.2)
              (buildAnn k j o) := by
  intro a ha
  simp only [voc_to_coco_split] at ha
  obtain ⟨a0, ha0, rfl⟩ := mem_map.mp ha
  rcases buildLoop_anns_mem fs ids [] [] 1 [] a0 ha0 with h | ⟨o, ho, k, j, rfl⟩
  · simp at h
  · exact ⟨o, ho, k, j, rfl⟩

theorem mkCategories_names (names : List String) :
    (mkCategories names).map (·.name) = names.dedup.insertionSort (· ≤ ·) := by
  simp only [mkCategories, map_map, Function.comp_def]
  rw [show (fun p : Nat × String =>
      ({ id := p.1 + 1, name := p.2, supercategory := "none" } : CocoCat).name)
    = Prod.snd from rfl]
  exact enum_map_snd _

theorem mkCategories_mem (names : List String) (n : String) :
    n ∈ (mkCategories names).map (·.name) ↔ n ∈ names := by
  rw [mkCategories_names]
  rw [(perm_insertionSort (· ≤ ·) names.dedup).mem_iff]
  exact mem_dedup

theorem mkCategories_nodup (names : List String) :
    ((mkCategories names).map (·.name)).Nodup := by
  rw [mkCategories_names]
  exact (perm_insertionSort (· ≤ ·) names.dedup).nodup_iff.mpr (nodup_dedup names)

theorem mkCategories_sorted (names : List String) :
    List.Sorted (· ≤ ·) ((mkCategories names).map (·.name)) := by
  rw [mkCategories_names]
  exact sorted_insertionSort (· ≤ ·) names.dedup

theorem mkCategories_id (names : List String) (i : Nat)
    (h : i < (mkCategories names).length) :
    ((mkCategories names).get ⟨i, h⟩).id = i + 1 := by
  simp [mkCategories, getElem_map, getElem_enum]

theorem mkCategories_super (names : List String) :
    ∀ c ∈ mkCategories names, c.supercategory = "none" := by
  intro c hc
  obtain ⟨p, _, rfl⟩ := mem_map.mp hc
  rfl

theorem mkCategories_perm_eq (names1 names2 : List String)
    (h : names1.Perm names2) : mkCategories names1 = mkCategories names2 := by
  have hperm : (names1.dedup.insertionSort (· ≤ ·)).Perm
      (names2.dedup.insertionSort (· ≤ ·)) :=
    ((perm_insertionSort (· ≤ ·) names1.dedup).trans h.dedup).trans
      (perm_insertionSort (· ≤ ·) names2.dedup).symm
  have heq : names1.dedup.insertionSort (· ≤ ·)
      = names2.dedup.insertionSort (· ≤ ·) :=
    eq_of_perm_of_sorted hperm
      (sorted_insertionSort (· ≤ ·) names1.dedup)
      (sorted_insertionSort (· ≤ ·) names2.dedup)
  unfold mkCategories
  rw [heq]

theorem mkCategories_exists_name {names : List String} {n : String}
    (h : n ∈ names) : ∃ c ∈ mkCategories names, c.name = n := by
  have := (mkCategories_mem names n).mpr h
  obtain ⟨c, hc, hn⟩ := mem_map.mp this
  exact ⟨c, hc, hn⟩

/-- The two-image, one-object-per-image scenario of the claim. -/
def treeObj : VocObject :=
  { name := "tree", difficult := 0, xmin := 10, ymin := 10, xmax := 50, ymax := 60 }

def treeImg : VocImage := { width := 100, height := 100, objects := [treeObj] }

def treeFs : String → Option VocImage :=
  fun s => if s = "t1" ∨ s = "t2" then some treeImg else none

/-- C6: every output annotation has `iscrowd = 0` and carries the
`[xmin, ymin, xmax-xmin, ymax-ymin]` box and `(xmax-xmin)*(ymax-ymin)`
area of one of the split's source objects; and the concrete split with two
image ids each holding one `"tree"` object with box `(10,10,50,60)` yields
2 images, 2 annotations, exactly one category `"tree"` with id 1, and both
annotations with bbox `[10,10,40,50]` and area 2000. -/
theorem C6_bbox_conversion :
    (∀ (ids : List String) (fs : String → Option VocImage),
        ∀ a ∈ (voc_to_coco_split ids fs).annotations,
          a.iscrowd = 0 ∧
          ∃ o ∈ sourceObjects ids fs,
            a.bbox = [o.xmin, o.ymin, o.xmax - o.xmin, o.ymax - o.ymin] ∧
            a.area = (o.xmax - o.xmin) * (o.ymax - o.ymin)) ∧
    (voc_to_coco_split ["t1", "t2"] treeFs).images.length = 2 ∧
    (voc_to_coco_split ["t1", "t2"] treeFs).annotations.length = 2 ∧
    (voc_to_coco_split ["t1", "t2"] treeFs).categories
      = [{ id := 1, name := "tree", supercategory := "none" }] ∧
    (voc_to_coco_split ["t1", "t2"] treeFs).annotations.map (·.bbox)
      = [[10, 10, 40, 50], [10, 10, 40, 50]] ∧
    (voc_to_coco_split ["t1", "t2"] treeFs).annotations.map (·.area)
      = [2000, 2000] := by
  refine ⟨?gen, by decide, by decide, by decide, by decide, by decide⟩
  intro ids fs a ha
  obtain ⟨o, ho, k, j, rfl⟩ := resolved_ann_source ids fs a ha
  exact ⟨rfl, o, ho, rfl, rfl⟩

/-- Witness for C6's general part at the concrete scenario. -/
theorem C6_witness :
    ((voc_to_coco_split ["t1", "t2"] treeFs).annotations.head?.getD
        (buildAnn 0 0 treeObj)).iscrowd = 0 ∧
    ∃ o ∈ sourceObjects ["t1", "t2"] treeFs,
      ((voc_to_coco_split ["t1", "t2"] treeFs).annotations.head?.getD
          (buildAnn 0 0 treeObj)).bbox
        = [o.xmin, o.ymin, o.xmax - o.xmin, o.ymax - o.ymin] ∧
      ((voc_to_coco_split ["t1", "t2"] treeFs).annotations.head?.getD
          (buildAnn 0 0 treeObj)).area
        = (o.xmax - o.xmin) * (o.ymax - o.ymin) :=
  C6_bbox_conversion.1 ["t1", "t2"] treeFs _ (by decide)

/-- C7: for every split, the category names are exactly the distinct class
names observed across the split's annotations (no duplicates, same
membership), listed in lexicographically sorted order with ids assigned
`1..N` by position and supercategory always the literal `"none"`; and the
construction depends only on the multiset of observed names — any
reordering (in particular any Python-set iteration order) yields the same
category list, so the assignment is deterministic across runs. -/
theorem C7_categories :
    (∀ (ids : List String) (fs : String → Option VocImage),
        ((voc_to_coco_split ids fs).categories.map (·.name)).Nodup ∧
        (∀ n, n ∈ (voc_to_coco_split ids fs).categories.map (·.name) ↔
            n ∈ (sourceObjects ids fs).map (·.name)) ∧
        List.Sorted (· ≤ ·) ((voc_to_coco_split ids fs).categories.map (·.name)) ∧
        (∀ (i : Nat) (h : i < (voc_to_coco_split ids fs).categories.length),
            ((voc_to_coco_split ids fs).categories.get ⟨i, h⟩).id = i + 1) ∧
        (∀ c ∈ (voc_to_coco_split ids fs).categories, c.supercategory = "none")) ∧
    (∀ names1 names2 : List String, names1.Perm names2 →
        mkCategories names1 = mkCategories names2) := by
  constructor
  · intro ids fs
    have hcats : (voc_to_coco_split ids fs).categories
        = mkCategories ((sourceObjects ids fs).map (·.name)) := by
      simp only [voc_to_coco_split]
      rw [buildLoop_names fs ids [] [] 1 []]
      simp
    rw [hcats]
    exact ⟨mkCategories_nodup _,
      fun n => mkCategories_mem _ n,
      mkCategories_sorted _,
      fun i h => mkCategories_id _ i h,
      mkCategories_super _⟩
  · exact mkCategories_perm_eq

/-- Witness for C7 at the concrete scenario and a concrete reordering. -/
theorem C7_witness :
    ((voc_to_coco_split ["t1", "t2"] treeFs).categories.map (·.name)).Nodup ∧
    ((voc_to_coco_split ["t1", "t2"] treeFs).categories.get
        ⟨0, by decide⟩).id = 0 + 1 ∧
    mkCategories ["b", "a"] = mkCategories ["a", "b"] :=
  ⟨(C7_categories.1 ["t1", "t2"] treeFs).1,
   (C7_categories.1 ["t1", "t2"] treeFs).2.2.2.1 0 (by decide),
   C7_categories.2 ["b", "a"] ["a", "b"] (by decide)⟩

/-- C8: the resolution pass succeeds for every annotation — the
list-comprehension lookup indexed with `[0]` never hits an empty list,
because every class name recorded during the object pass is in the
category set by construction — so no annotation reaches the output with an
unresolved `category_id` or with the transient `category_name` still
present. -/
theorem C8_resolution_total :
    ∀ (ids : List String) (fs : String → Option VocImage),
      ∀ a ∈ (voc_to_coco_split ids fs).annotations,
        a.category_id.isSome = true ∧ a.category_name = none := by
  intro ids fs a ha
  obtain ⟨o, ho, k, j, rfl⟩ := resolved_ann_source ids fs a ha
  refine ⟨?res, rfl⟩
  have hname : o.name ∈ (buildLoop fs ids [] [] 1 []).2.2 := by
    rw [buildLoop_names fs ids [] [] 1 []]
    simpa using mem_map_of_mem (·.name) ho
  obtain ⟨c, hc, hcn⟩ := mkCategories_exists_name hname
  have hfilter : c ∈ (mkCategories (buildLoop fs ids [] [] 1 []).2.2).filter
      (fun c => decide (some c.name = (buildAnn k j o).category_name)) := by
    rw [mem_filter]
    exact ⟨hc, by simp [buildAnn, hcn]⟩
  have hne : ((mkCategories (buildLoop fs ids [] [] 1 []).2.2).filter
      (fun c => decide (some c.name = (buildAnn k j o).category_name))).map (·.id) ≠ [] := by
    simp only [ne_eq, map_eq_nil_iff]
    intro hnil
    rw [hnil] at hfilter
    exact (not_mem_nil c) hfilter
  simp only [resolveAnn]
  rw [Option.isSome_iff_ne_none]
  intro hnone
  rw [head?_eq_none_iff] at hnone
  exact hne hnone

/-- Witness for C8 at the concrete scenario's first annotation. -/
theorem C8_witness :
    ((voc_to_coco_split ["t1", "t2"] treeFs).annotations.head?.getD
        (buildAnn 0 0 treeObj)).category_id.isSome = true ∧
    ((voc_to_coco_split ["t1", "t2"] treeFs).annotations.head?.getD
        (buildAnn 0 0 treeObj)).category_name = none :=
  C8_resolution_total ["t1", "t2"] treeFs _ (by decide)

/-- C9 (implicit): every output annotation carries, besides the documented
COCO fields, the integer field `difficult`, copied from the `difficult`
flag of the VOC object it was built from (the field is never deleted by
the resolution pass). -/
theorem C9_difficult_field :
    ∀ (ids : List String) (fs : String → Option VocImage),
      ∀ a ∈ (voc_to_coco_split ids fs).annotations,
        ∃ o ∈ sourceObjects ids fs, a.difficult = o.difficult := by
  intro ids fs a ha
  obtain ⟨o, ho, k, j, rfl⟩ := resolved_ann_source ids fs a ha
  exact ⟨o, ho, rfl⟩

/-- Witness for C9 at the concrete scenario's first annotation. -/
theorem C9_witness :
    ∃ o ∈ sourceObjects ["t1", "t2"] treeFs,
      ((voc_to_coco_split ["t1", "t2"] treeFs).annotations.head?.getD
          (buildAnn 0 0 treeObj)).difficult = o.difficult :=
  C9_difficult_field ["t1", "t2"] treeFs _ (by decide)

/-! ## Progress indicator (`update_progress`) -/

/-- `update_progress`: the progress bar's value is the size of the whole
classification dict, its maximum the number of loaded records —
`(len(self.classifications), len(self.image_info))`. -/
def update_progress (image_info : List ImageRecord) (m : CMap) : Nat × Nat :=
  (m.length, image_info.length)

theorem length_filter_split {α : Type} (p : α → Bool) (l : List α) :
    l.length = (l.filter p).length + (l.filter (fun x => !(p x))).length := by
  induction l with
  | nil => simp
  | cons x xs ih =>
    by_cases hx : p x <;> simp [filter_cons, hx, ih] <;> omega

/-- C10 (implicit): the classified count is the size of the entire
classification map — it splits into the entries whose file name is a loaded
record's name plus the entries whose file name is not, and the latter are
counted too; consequently, importing a progress file that lists two names
outside a one-image load makes the classified count (2) exceed the total
count (1). -/
theorem C10_classified_count :
    (∀ (image_info : List ImageRecord) (m : CMap),
        (update_progress image_info m).1
          = (m.filter (fun e =>
              decide (e.1 ∈ image_info.map (fun r => r.file_name.toList)))).length
            + (m.filter (fun e =>
              !(decide (e.1 ∈ image_info.map (fun r => r.file_name.toList))))).length) ∧
    (update_progress [{ id := 1, file_name := "a.jpg", annotations := [] }]
        (importLines [] ["foo.jpg: 稀疏\n".toList, "bar.jpg: 密集\n".toList]).1).2
      < (update_progress [{ id := 1, file_name := "a.jpg", annotations := [] }]
        (importLines [] ["foo.jpg: 稀疏\n".toList, "bar.jpg: 密集\n".toList]).1).1 := by
  constructor
  · intro image_info m
    exact length_filter_split _ m
  · decide

end ObjCls
